import Mathlib

/-!
Verification development for the T-Dongle-S3 stock-market display firmware
(`src/main.cpp`).  The quote pipeline is embedded shallowly:

* Arduino `String` values are `List Char`; `String::indexOf`, `substring`,
  `trim`, `startsWith` and `toDouble` are modelled below with the semantics
  of the Arduino core (`indexOf` returns -1 when absent or when the start
  offset is at or past the end; `substring` swaps and clamps its bounds;
  `toDouble` is `strtod` restricted to plain decimal numerals, which is the
  only shape the code ever feeds it).
* C `double` values are modelled as rationals; `sprintf("%0.<d>f", v)` is
  modelled as exact decimal rounding to `d` places (round half to even,
  the rounding used by the platform's `dtoa`).
* The network is an explicit parameter: an `HttpAttempt` is either a failed
  `http.begin` or a response with a status code and a body, which is what
  `fetchQuote` branches on.
-/

set_option maxRecDepth 40000

namespace StockMarket

/-! ### Arduino `String` primitives -/

/-- `leadsWith needle s` is true when `needle` is an initial run of `s`. -/
def leadsWith : List Char → List Char → Bool
  | [], _ => true
  | _ :: _, [] => false
  | a :: as, b :: bs => a == b && leadsWith as bs

/-- Scan `s` (whose first element sits at absolute index `i`) for the first
occurrence of `needle`, returning its absolute index. -/
def idxAux (needle : List Char) : List Char → ℕ → Option ℕ
  | [], i => if leadsWith needle [] then some i else none
  | c :: t, i => if leadsWith needle (c :: t) then some i else idxAux needle t (i + 1)

/-- `String::indexOf(needle, start)` before the -1 encoding: `none` when the
start offset is at or past the end of the buffer or there is no occurrence. -/
def indexOfFrom (hay needle : List Char) (start : ℕ) : Option ℕ :=
  if hay.length ≤ start then none else idxAux needle (hay.drop start) start

/-- `String::indexOf(needle, start)` with the Arduino -1 failure encoding. -/
def indexOfI (hay needle : List Char) (start : ℕ) : Int :=
  match indexOfFrom hay needle start with
  | some i => (i : Int)
  | none => -1

/-- `String::substring(l, r)`: swaps the bounds when reversed, clamps the
right bound to the length, and yields the bytes of `[l, r)`. -/
def substringA (cs : List Char) (l r : ℕ) : List Char :=
  let lo := if r < l then r else l
  let hi := if r < l then l else r
  if cs.length ≤ lo then [] else (cs.take (min hi cs.length)).drop lo

/-- The whitespace class used by `String::trim` (C `isspace`). -/
def isSpaceC (c : Char) : Bool :=
  c = ' ' || c = '\t' || c = '\n' || c = '\r' || c = '\x0b' || c = '\x0c'

/-- `String::trim`: strip whitespace from both ends. -/
def trimA (cs : List Char) : List Char :=
  ((cs.dropWhile isSpaceC).reverse.dropWhile isSpaceC).reverse

/-- Numeric value of a decimal digit character. -/
def digitVal (c : Char) : ℕ := c.toNat - 48

/-- Accumulate a run of leading decimal digits: value, digit count, rest. -/
def digitsAcc : List Char → ℕ → ℕ → ℕ × ℕ × List Char
  | [], acc, cnt => (acc, cnt, [])
  | c :: t, acc, cnt =>
    if c.isDigit then digitsAcc t (acc * 10 + digitVal c) (cnt + 1)
    else (acc, cnt, c :: t)

/-- The discrete data recovered by `strtod` from a plain decimal numeral:
sign, integer-part value, fraction-part value and fraction digit count. -/
def toDoubleParts (cs : List Char) : Bool × ℕ × ℕ × ℕ :=
  let cs := cs.dropWhile isSpaceC
  let signAndRest : Bool × List Char :=
    match cs with
    | '-' :: t => (true, t)
    | '+' :: t => (false, t)
    | _ => (false, cs)
  let ipRes := digitsAcc signAndRest.2 0 0
  let fpRes : ℕ × ℕ :=
    match ipRes.2.2 with
    | '.' :: t => ((digitsAcc t 0 0).1, (digitsAcc t 0 0).2.1)
    | _ => (0, 0)
  (signAndRest.1, ipRes.1, fpRes.1, fpRes.2)

/-- `String::toDouble` (`strtod`) for the plain decimal numerals the firmware
feeds it: optional whitespace, optional sign, digits, optional fraction;
anything unparsable yields the failure value 0. -/
def toDouble (cs : List Char) : ℚ :=
  let p := toDoubleParts cs
  let mag : ℚ := (p.2.1 : ℚ) + (p.2.2.1 : ℚ) / 10 ^ p.2.2.2
  if p.1 then -mag else mag

/-! ### The data model (`main.cpp` lines 25-33) -/

/-- The `quote` struct: current value, previous close, derived percentage
change, and the market-open flag. -/
structure quote where
  current : ℚ
  previousClose : ℚ
  percentageChange : ℚ
  marketOpen : Bool
deriving DecidableEq

/-- The three global quote slots `spx, ndx, bnd`. -/
structure QuoteSet where
  spx : quote
  ndx : quote
  bnd : quote
deriving DecidableEq

/-- C++ zero-initialization of the global `quote spx, ndx, bnd;`. -/
def initQuote : quote := ⟨0, 0, 0, false⟩

/-- The zero-initialized global quote set at boot. -/
def initQuotes : QuoteSet := ⟨initQuote, initQuote, initQuote⟩

/-! ### Field extraction (`extractValue`, lines 84-96) -/

/-- The search key `"regularMarketPrice":` (quotes and colon included). -/
def keyPrice : List Char := "\"regularMarketPrice\":".data

/-- The search key `"chartPreviousClose":` (quotes and colon included). -/
def keyPrevClose : List Char := "\"chartPreviousClose\":".data

/-- The metadata section marker `"meta":{`. -/
def keyMeta : List Char := "\"meta\":\x7b".data

/-- The half-open scan range `[start, end)` that `extractValue` slices out of
the payload, when its two guards (`start > strlen(field)` and `end > start`)
both pass; `none` when either guard fails.  `start` and `end` are the `int`
variables of the source. -/
def extractSpan (payload field : List Char) : Option (Int × Int) :=
  let start : Int := indexOfI payload field 0 + (field.length : Int)
  if (field.length : Int) < start then
    let e : Int := indexOfI payload [','] start.toNat
    if start < e then some (start, e) else none
  else none

/-- `value.startsWith(":")` followed by `value.substring(1)`: drop one
leading colon. -/
def dropColon : List Char → List Char
  | ':' :: rest => rest
  | cs => cs

/-- `extractValue`: slice the value after the key up to the next comma, trim
it, drop a leading colon, and parse it; 0.0 is the failure value. -/
def extractValue (payload field : List Char) : ℚ :=
  match extractSpan payload field with
  | some (s, e) => toDouble (dropColon (trimA (substringA payload s.toNat e.toNat)))
  | none => 0

/-! ### Quote fetching (`fetchQuote`, lines 99-146; `getQuotes`, 149-175) -/

/-- The outcome of the HTTP round-trip that `fetchQuote` branches on: either
`http.begin` failed, or a response arrived with a status code and a body. -/
inductive HttpAttempt where
  | beginFail : HttpAttempt
  | response (code : Int) (payload : List Char) : HttpAttempt
deriving DecidableEq

/-- The `[metaStart, metaEnd]` positions found by `fetchQuote`'s section
search (`indexOf("\"meta\":\x7b")`, then `indexOf("\x7d", metaStart)`), when both
succeed. -/
def metaSpan (payload : List Char) : Option (Int × Int) :=
  let ms : Int := indexOfI payload keyMeta 0
  if ms ≠ -1 then
    let me : Int := indexOfI payload ['\x7d'] ms.toNat
    if me ≠ -1 then some (ms, me) else none
  else none

/-- The success branch of `fetchQuote` (lines 127-139): overwrite all four
fields of `data` from the meta section, guarding the zero previous close. -/
def populate (metaSection : List Char) : quote :=
  { current := extractValue metaSection keyPrice
    previousClose := extractValue metaSection keyPrevClose
    percentageChange :=
      if extractValue metaSection keyPrevClose ≠ 0 then
        (extractValue metaSection keyPrice - extractValue metaSection keyPrevClose) /
          extractValue metaSection keyPrevClose * 100
      else 0
    marketOpen := true }

/-- `fetchQuote`: returns the updated quote record together with the `bool`
result of the function.  On every failure path the source returns `false`
without writing to `data`. -/
def fetchQuote (att : HttpAttempt) (data : quote) : quote × Bool :=
  match att with
  | .beginFail => (data, false)
  | .response code payload =>
    if code = 200 then
      match metaSpan payload with
      | some (ms, me) => (populate (substringA payload ms.toNat (me + 1).toNat), true)
      | none => (data, false)
    else (data, false)

/-- `getQuotes`: fetch the three instruments in sequence into the quote set,
returning the new set and the three success flags. -/
def getQuotes (aSpx aNdx aBnd : HttpAttempt) (s : QuoteSet) :
    QuoteSet × (Bool × Bool × Bool) :=
  let r1 := fetchQuote aSpx s.spx
  let r2 := fetchQuote aNdx s.ndx
  let r3 := fetchQuote aBnd s.bnd
  (⟨r1.1, r2.1, r3.1⟩, (r1.2, r2.2, r3.2))

/-- One turn of `loop()` as far as the quote state is concerned: a cycle is
the triple of HTTP outcomes for the three instruments. -/
def runCycle (s : QuoteSet) (c : HttpAttempt × HttpAttempt × HttpAttempt) : QuoteSet :=
  (getQuotes c.1 c.2.1 c.2.2 s).1

/-- The quote state after a sequence of refresh cycles starting from boot
state `init`. -/
def runCycles (init : QuoteSet) (cycles : List (HttpAttempt × HttpAttempt × HttpAttempt)) :
    QuoteSet :=
  cycles.foldl runCycle init

/-! ### Display colors (`drawQuote` 178-188, `drawPercentChange` 198-208) -/

/-- The abstract display classes; the source maps them to
`TFT_DARKGREY / TFT_GREEN / TFT_WHITE / TFT_RED`. -/
inductive DisplayColor where
  | inactive
  | up
  | neutral
  | down
deriving DecidableEq

/-- Color chosen by `drawQuote` for the value row. -/
def valueColor (q : quote) : DisplayColor :=
  if !q.marketOpen then .inactive
  else if q.current > q.previousClose then .up
  else if q.current = q.previousClose then .neutral
  else .down

/-- Color chosen by `drawPercentChange` for the percent row. -/
def percentColor (q : quote) : DisplayColor :=
  if !q.marketOpen then .inactive
  else if q.percentageChange > 0 then .up
  else if |q.percentageChange| < 1 / 1000 then .neutral
  else .down

/-- The value-row classification exactly as the specification words it. -/
def valueColorSpec (q : quote) : DisplayColor :=
  if q.marketOpen = false then .inactive
  else if q.current > q.previousClose then .up
  else if q.current = q.previousClose then .neutral
  else .down

/-- The percent-row classification exactly as the specification words it. -/
def percentColorSpec (q : quote) : DisplayColor :=
  if q.marketOpen = false then .inactive
  else if q.percentageChange > 0 then .up
  else if |q.percentageChange| < 1 / 1000 then .neutral
  else .down

/-! ### Number formatting (`comma_separator`, lines 39-81) -/

/-- Round to the nearest integer, half to even (the platform `dtoa`
rounding behind `sprintf("%f", ...)`). -/
def rne (x : ℚ) : ℤ :=
  let f := ⌊x⌋
  let r := x - (f : ℚ)
  if r < 1 / 2 then f
  else if 1 / 2 < r then f + 1
  else if Even f then f else f + 1

/-- Decimal digit characters of `n`, most significant first, via the usual
divide-by-ten recursion (the fuel only bounds the recursion depth). -/
def natDigitsAux : ℕ → ℕ → List Char
  | 0, _ => []
  | fuel + 1, n =>
    if n < 10 then [Nat.digitChar n]
    else natDigitsAux fuel (n / 10) ++ [Nat.digitChar (n % 10)]

/-- Decimal digit characters of `n`, most significant first. -/
def natDigits (n : ℕ) : List Char := natDigitsAux (n + 1) n

/-- Left-pad a digit string with zeros to width `d`. -/
def padZeros (d : ℕ) (cs : List Char) : List Char :=
  List.replicate (d - cs.length) '0' ++ cs

/-- `sprintf("%0.<d>f", v)` on the rational model of a double: the sign of
the value, the integer digits, and (when `d > 0`) a point followed by
exactly `d` fraction digits. -/
def fixedFormat (v : ℚ) (d : ℕ) : List Char :=
  (if v < 0 then ['-'] else []) ++
    natDigits ((rne (v * 10 ^ d)).natAbs / 10 ^ d) ++
    (if d = 0 then []
     else '.' :: padZeros d (natDigits ((rne (v * 10 ^ d)).natAbs % 10 ^ d)))

/-- The integer-part copy loop of `comma_separator`: copy characters,
inserting `sep` whenever the running index `i` reaches the boundary `k`,
which then advances by 3. -/
def groupLoop : List Char → ℕ → ℕ → Char → List Char
  | [], _, _, _ => []
  | c :: rest, i, k, sep =>
    if i = k then sep :: c :: groupLoop rest (i + 1) (k + 3) sep
    else c :: groupLoop rest (i + 1) k sep

/-- `comma_separator(num, str, sep, decimals)`: format to `decimals` places,
locate the decimal point, insert `sep` into the integer part at boundaries
`(intLen % 3) (+3)*` (with boundary 3 when the remainder is 0), then copy at
most `decimals` fraction digits after a literal point. -/
def comma_separator (num : ℚ) (sep : Char) (decimals : ℕ) : List Char :=
  let temp := fixedFormat num decimals
  let len := temp.length
  let decimalPos : Int := indexOfI temp ['.'] 0
  let intLen : ℕ := if decimalPos = -1 then len else decimalPos.toNat
  let k0 := intLen % 3
  let k := if k0 = 0 then 3 else k0
  let whole := groupLoop (temp.take intLen) 0 k sep
  if decimalPos = -1 then whole
  else whole ++ '.' :: (temp.drop (intLen + 1)).take decimals

/-- Length of the integer portion (sign included) of the fixed-point image
of `v`, exactly as `comma_separator` computes it from the decimal point. -/
def intPortionLen (v : ℚ) (d : ℕ) : ℕ :=
  let temp := fixedFormat v d
  let decimalPos : Int := indexOfI temp ['.'] 0
  if decimalPos = -1 then temp.length else decimalPos.toNat

/-- Value of a digit string read in base 10. -/
def digitsToNat (cs : List Char) : ℕ :=
  cs.foldl (fun acc c => acc * 10 + digitVal c) 0

/-- Specification-side reading of a formatted string: keep only the digit
characters (dropping the group separators and the point) and re-insert the
point `d` places from the end. -/
def parseBackDigits (cs : List Char) (d : ℕ) : ℚ :=
  (digitsToNat (cs.filter Char.isDigit) : ℚ) / 10 ^ d

/-- `v` rounded to `d` decimal places, with the same rounding as
`fixedFormat`. -/
def roundTo (v : ℚ) (d : ℕ) : ℚ := ((rne (v * 10 ^ d) : ℤ) : ℚ) / 10 ^ d

/-- Percentage-change law of the data model: the derived field agrees with
`(current - previousClose) / previousClose * 100`, with the zero guard. -/
def pcInvariant (q : quote) : Prop :=
  (q.previousClose ≠ 0 →
    q.percentageChange = (q.current - q.previousClose) / q.previousClose * 100) ∧
  (q.previousClose = 0 → q.percentageChange = 0)

/-! ### Concrete buffers used by the claims -/

/-- The FieldExtractor example buffer of the specification, with the quote
characters part of the buffer. -/
def bufC3 : List Char := "\"regularMarketPrice\":123.45,\"x\":1".data

/-- The example buffer with the price key replaced by another key. -/
def bufNoKey : List Char := "\"otherLabelledClose\":123.45,\"x\":1".data

/-- A payload whose meta section is empty: the section is found but neither
field can be extracted. -/
def pBad : List Char := "\"meta\":\x7b\x7d".data

/-- A well-formed payload carrying both fields inside the meta section. -/
def pGood : List Char :=
  "\x7b\"meta\":\x7b\"regularMarketPrice\":123.45,\"chartPreviousClose\":100.5,\"z\":9\x7d,\"x\":2\x7d".data

/-- A quote left over from a prior successful cycle (`marketOpen = true`). -/
def qOpen : quote := ⟨1, 2, 3, true⟩

/-! ### Evaluation helpers -/

lemma extractValue_of_span_none (p f : List Char) (h : extractSpan p f = none) :
    extractValue p f = 0 := by
  simp [extractValue, h]

lemma extractValue_of_span_some (p f : List Char) (s e : Int)
    (h : extractSpan p f = some (s, e)) :
    extractValue p f = toDouble (dropColon (trimA (substringA p s.toNat e.toNat))) := by
  simp [extractValue, h]

lemma toDouble_of_parts (cs : List Char) (b : Bool) (ip fp fc : ℕ)
    (h : toDoubleParts cs = (b, ip, fp, fc)) :
    toDouble cs = if b then -((ip : ℚ) + fp / 10 ^ fc) else (ip : ℚ) + fp / 10 ^ fc := by
  simp only [toDouble, h]

/-! ### Soundness of the index scan -/

lemma leadsWith_length {needle s : List Char} (h : leadsWith needle s = true) :
    needle.length ≤ s.length := by
  induction needle generalizing s with
  | nil => simp
  | cons a as ih =>
    cases s with
    | nil => simp [leadsWith] at h
    | cons b bs =>
      simp only [leadsWith, Bool.and_eq_true] at h
      simpa using ih h.2

lemma idxAux_sound {needle : List Char} :
    ∀ {s : List Char} {i j : ℕ}, idxAux needle s i = some j →
      i ≤ j ∧ j ≤ i + s.length ∧ leadsWith needle (s.drop (j - i)) = true := by
  intro s
  induction s with
  | nil =>
    intro i j h
    simp only [idxAux] at h
    split at h
    · cases h
      exact ⟨le_refl _, by simp, by simpa using (by assumption : leadsWith needle [] = true)⟩
    · cases h
  | cons c t ih =>
    intro i j h
    simp only [idxAux] at h
    split at h
    · cases h
      refine ⟨le_refl _, by simp, ?_⟩
      simpa using (by assumption : leadsWith needle (c :: t) = true)
    · obtain ⟨h1, h2, h3⟩ := ih h
      refine ⟨by omega, by simp; omega, ?_⟩
      have hji : j - i = (j - (i + 1)) + 1 := by omega
      rw [hji, List.drop_succ_cons]
      exact h3

lemma indexOfFrom_sound {hay needle : List Char} {start i : ℕ}
    (h : indexOfFrom hay needle start = some i) :
    start ≤ i ∧ i ≤ hay.length ∧ leadsWith needle (hay.drop i) = true := by
  unfold indexOfFrom at h
  split at h
  · cases h
  · obtain ⟨h1, h2, h3⟩ := idxAux_sound h
    have hlen : (hay.drop start).length = hay.length - start := List.length_drop _ _
    have hstart : ¬ hay.length ≤ start := by assumption
    refine ⟨h1, by omega, ?_⟩
    rw [List.drop_drop] at h3
    have heq : start + (i - start) = i := by omega
    rwa [heq] at h3

lemma indexOfFrom_bound {hay needle : List Char} {start i : ℕ}
    (h : indexOfFrom hay needle start = some i) :
    start ≤ i ∧ i + needle.length ≤ hay.length := by
  obtain ⟨h1, h2, h3⟩ := indexOfFrom_sound h
  have := leadsWith_length h3
  rw [List.length_drop] at this
  exact ⟨h1, by omega⟩

lemma indexOfI_none {hay needle : List Char} {start : ℕ}
    (h : indexOfFrom hay needle start = none) : indexOfI hay needle start = -1 := by
  simp [indexOfI, h]

lemma indexOfI_some {hay needle : List Char} {start i : ℕ}
    (h : indexOfFrom hay needle start = some i) : indexOfI hay needle start = (i : Int) := by
  simp [indexOfI, h]

lemma extractSpan_some_elim {p f : List Char} {s e : Int}
    (h : extractSpan p f = some (s, e)) :
    ∃ i j : ℕ, indexOfFrom p f 0 = some i ∧ 1 ≤ i ∧ s = (i : Int) + f.length ∧
      indexOfFrom p [','] s.toNat = some j ∧ e = (j : Int) ∧ s < e := by
  cases hfind : indexOfFrom p f 0 with
  | none =>
    rw [extractSpan.eq_def] at h
    simp only [indexOfI_none hfind] at h
    rw [if_neg (by omega)] at h
    cases h
  | some i =>
    rw [extractSpan.eq_def] at h
    simp only [indexOfI_some hfind] at h
    by_cases hguard : (f.length : Int) < (i : Int) + (f.length : Int)
    · rw [if_pos hguard] at h
      cases hfind2 : indexOfFrom p [','] ((i : Int) + (f.length : Int)).toNat with
      | none =>
        simp only [indexOfI_none hfind2] at h
        rw [if_neg (by omega)] at h
        cases h
      | some j =>
        simp only [indexOfI_some hfind2] at h
        by_cases hlt : ((i : Int) + (f.length : Int)) < (j : Int)
        · rw [if_pos hlt] at h
          simp only [Option.some.injEq, Prod.mk.injEq] at h
          obtain ⟨rfl, rfl⟩ := h
          exact ⟨i, j, rfl, by omega, rfl, hfind2, rfl, hlt⟩
        · rw [if_neg hlt] at h
          cases h
    · rw [if_neg hguard] at h
      cases h

lemma metaSpan_some_elim {p : List Char} {ms me : Int}
    (h : metaSpan p = some (ms, me)) :
    ∃ i j : ℕ, indexOfFrom p keyMeta 0 = some i ∧ ms = (i : Int) ∧
      indexOfFrom p ['\x7d'] i = some j ∧ me = (j : Int) := by
  cases hfind : indexOfFrom p keyMeta 0 with
  | none =>
    rw [metaSpan.eq_def] at h
    simp only [indexOfI_none hfind] at h
    rw [if_neg (by omega)] at h
    cases h
  | some i =>
    rw [metaSpan.eq_def] at h
    simp only [indexOfI_some hfind] at h
    rw [if_pos (show ((i : ℕ) : Int) ≠ -1 by omega)] at h
    rw [show ((i : ℕ) : Int).toNat = i by omega] at h
    cases hfind2 : indexOfFrom p ['\x7d'] i with
    | none =>
      simp only [indexOfI_none hfind2] at h
      rw [if_neg (by omega)] at h
      cases h
    | some j =>
      simp only [indexOfI_some hfind2] at h
      rw [if_pos (show ((j : ℕ) : Int) ≠ -1 by omega)] at h
      simp only [Option.some.injEq, Prod.mk.injEq] at h
      obtain ⟨rfl, rfl⟩ := h
      exact ⟨i, j, rfl, rfl, hfind2, rfl⟩

/-! ### Helper lemmas about `fetchQuote` -/

lemma fetchQuote_fail_or_pop (att : HttpAttempt) (q : quote) :
    fetchQuote att q = (q, false) ∨
    ∃ payload ms me, att = HttpAttempt.response 200 payload ∧
      metaSpan payload = some (ms, me) ∧
      fetchQuote att q = (populate (substringA payload ms.toNat (me + 1).toNat), true) := by
  cases att with
  | beginFail => exact Or.inl rfl
  | response code payload =>
    by_cases hc : code = 200
    · subst hc
      rcases hms : metaSpan payload with _ | ⟨ms, me⟩
      · exact Or.inl (by simp [fetchQuote, hms])
      · exact Or.inr ⟨payload, ms, me, rfl, hms, by simp [fetchQuote, hms]⟩
    · exact Or.inl (by simp [fetchQuote, hc])

lemma fetchQuote_fail_frame (att : HttpAttempt) (q : quote)
    (h : (fetchQuote att q).2 = false) : (fetchQuote att q).1 = q := by
  rcases fetchQuote_fail_or_pop att q with heq | ⟨payload, ms, me, _, _, heq⟩
  · rw [heq]
  · rw [heq] at h
    exact absurd h (by simp)

/-! ### Claim C1 -/

/-- C1 is false on the code: in a cycle where every fetch fails (here with
`http.begin` failing for all three instruments), a quote whose prior
`marketOpen` was `true` still has `marketOpen = true` afterwards — the
failure paths of `fetchQuote` return without writing to `data`, and nothing
ever forces `marketOpen` to `false`. -/
theorem c1_counterexample :
    (getQuotes .beginFail .beginFail .beginFail ⟨qOpen, qOpen, qOpen⟩).2.1 = false ∧
    (getQuotes .beginFail .beginFail .beginFail ⟨qOpen, qOpen, qOpen⟩).1.spx.marketOpen
      = true := by
  constructor <;> rfl

/-- C1 (amended): a failed fetch leaves the instrument's quote entirely
unchanged — including `marketOpen`, which keeps its prior value instead of
being forced to `false`; likewise for each slot of a refresh cycle. -/
theorem c1_failed_fetch_leaves_quote :
    (∀ (att : HttpAttempt) (q : quote),
      (fetchQuote att q).2 = false → (fetchQuote att q).1 = q) ∧
    (∀ (a b c : HttpAttempt) (s : QuoteSet),
      ((getQuotes a b c s).2.1 = false → (getQuotes a b c s).1.spx = s.spx) ∧
      ((getQuotes a b c s).2.2.1 = false → (getQuotes a b c s).1.ndx = s.ndx) ∧
      ((getQuotes a b c s).2.2.2 = false → (getQuotes a b c s).1.bnd = s.bnd)) := by
  refine ⟨fetchQuote_fail_frame, fun a b c s => ⟨?_, ?_, ?_⟩⟩
  · exact fun h => fetchQuote_fail_frame a s.spx h
  · exact fun h => fetchQuote_fail_frame b s.ndx h
  · exact fun h => fetchQuote_fail_frame c s.bnd h

/-- Witness for C1's amended theorem at a concrete failed fetch. -/
theorem c1_witness :
    (fetchQuote .beginFail qOpen).2 = false ∧ (fetchQuote .beginFail qOpen).1 = qOpen :=
  ⟨rfl, c1_failed_fetch_leaves_quote.1 .beginFail qOpen rfl⟩

/-! ### Claim C2 -/

lemma eval_pBad_span : extractSpan (substringA pBad 0 9) keyPrice = none := by decide

lemma eval_pBad_span2 : extractSpan (substringA pBad 0 9) keyPrevClose = none := by decide

lemma eval_pBad_meta : metaSpan pBad = some (0, 8) := by decide

lemma eval_pBad_populate : populate (substringA pBad 0 9) = ⟨0, 0, 0, true⟩ := by
  simp [populate, extractValue_of_span_none _ _ eval_pBad_span,
    extractValue_of_span_none _ _ eval_pBad_span2]

lemma eval_pBad_fetch :
    fetchQuote (.response 200 pBad) qOpen = (⟨0, 0, 0, true⟩, true) := by
  have h9 : ((0 : Int).toNat = 0) ∧ (((8 : Int) + 1).toNat = 9) := by decide
  simp [fetchQuote, eval_pBad_meta, h9.1, h9.2, eval_pBad_populate]

/-- C2 is false on the code: for the payload `"meta":\x7b\x7d` the metadata
section is found but neither field can be extracted (`extractSpan` is `none`
for the price key), yet `fetchQuote` reports success and produces a
populated quote `⟨0, 0, 0, true⟩` — `extractValue`'s failure value 0.0 is
stored silently and the function still returns `true`. -/
theorem c2_counterexample :
    extractSpan (substringA pBad 0 9) keyPrice = none ∧
    fetchQuote (.response 200 pBad) qOpen = (⟨0, 0, 0, true⟩, true) :=
  ⟨eval_pBad_span, eval_pBad_fetch⟩

/-- C2 (amended): whenever the metadata section is found (both the start
marker and a closing brace), `fetchQuote` reports success unconditionally
and stores whatever `extractValue` returns — a field that cannot be
extracted is stored as the failure value 0.0 instead of failing the
fetch. -/
theorem c2_section_found_forces_success :
    ∀ (payload : List Char) (q : quote) (ms me : Int),
      metaSpan payload = some (ms, me) →
      (fetchQuote (.response 200 payload) q).2 = true ∧
      (fetchQuote (.response 200 payload) q).1 =
        populate (substringA payload ms.toNat (me + 1).toNat) := by
  intro payload q ms me hms
  constructor <;> simp [fetchQuote, hms]

/-- Witness for C2's amended theorem at the empty meta section. -/
theorem c2_witness :
    metaSpan pBad = some (0, 8) ∧
    (fetchQuote (.response 200 pBad) qOpen).2 = true ∧
    (fetchQuote (.response 200 pBad) qOpen).1 = populate (substringA pBad 0 9) :=
  ⟨eval_pBad_meta, c2_section_found_forces_success pBad qOpen 0 8 eval_pBad_meta⟩

/-! ### Claim C3 -/

lemma eval_bufC3_span : extractSpan bufC3 keyPrice = none := by decide

lemma eval_bufC3_value : extractValue bufC3 keyPrice = 0 :=
  extractValue_of_span_none _ _ eval_bufC3_span

lemma eval_bufC3_shift_span : extractSpan (' ' :: bufC3) keyPrice = some (22, 28) := by
  decide

lemma eval_td_item : toDouble ("123.45".data) = 2469 / 20 := by
  rw [toDouble_of_parts ("123.45".data) false 123 45 2 (by decide)]
  norm_num

lemma eval_bufC3_shift_value : extractValue (' ' :: bufC3) keyPrice = 2469 / 20 := by
  rw [extractValue_of_span_some _ _ _ _ eval_bufC3_shift_span]
  have htrim : dropColon (trimA (substringA (' ' :: bufC3) (Int.toNat 22) (Int.toNat 28)))
      = "123.45".data := by decide
  rw [htrim, eval_td_item]

lemma eval_bufNoKey_span : extractSpan bufNoKey keyPrice = none := by decide

lemma eval_bufNoKey_value : extractValue bufNoKey keyPrice = 0 :=
  extractValue_of_span_none _ _ eval_bufNoKey_span

/-- C3 is false on the code: on the exact example buffer the key occurs at
offset 0, so `indexOf` returns 0, `start` equals `strlen(field)`, the guard
`start > strlen(field)` fails, and `extractValue` returns the failure value
0.0 instead of 123.45. -/
theorem c3_counterexample :
    extractSpan bufC3 keyPrice = none ∧ extractValue bufC3 keyPrice = 0 :=
  ⟨eval_bufC3_span, eval_bufC3_value⟩

/-- C3 (amended): on the example buffer the extraction succeeds only when
the key starts strictly after offset 0 (here: the same buffer preceded by a
single space), returning 123.45; with the key at offset 0 or absent it
returns the failure value 0.0. -/
theorem c3_extract_examples :
    extractValue (' ' :: bufC3) keyPrice = 2469 / 20 ∧
    extractSpan (' ' :: bufC3) keyPrice = some (22, 28) ∧
    extractValue bufNoKey keyPrice = 0 ∧
    extractSpan bufNoKey keyPrice = none :=
  ⟨eval_bufC3_shift_value, eval_bufC3_shift_span, eval_bufNoKey_value, eval_bufNoKey_span⟩

/-! ### Claim C5 -/

/-- C5: a transport failure (failed `http.begin` or a non-OK status code)
leaves `current`, `previousClose` and `percentageChange` exactly unchanged:
both failure paths return before touching `data`. -/
theorem c5_transport_failure_frame :
    ∀ (q : quote) (code : Int) (payload : List Char), code ≠ 200 →
      ((fetchQuote .beginFail q).1.current = q.current ∧
       (fetchQuote .beginFail q).1.previousClose = q.previousClose ∧
       (fetchQuote .beginFail q).1.percentageChange = q.percentageChange) ∧
      ((fetchQuote (.response code payload) q).1.current = q.current ∧
       (fetchQuote (.response code payload) q).1.previousClose = q.previousClose ∧
       (fetchQuote (.response code payload) q).1.percentageChange = q.percentageChange) := by
  intro q code payload hc
  refine ⟨⟨rfl, rfl, rfl⟩, ?_⟩
  simp [fetchQuote, hc]

/-- Witness for C5 at a concrete HTTP 404. -/
theorem c5_witness :
    (404 : Int) ≠ 200 ∧
    (fetchQuote (.response 404 pGood) qOpen).1.current = qOpen.current ∧
    (fetchQuote (.response 404 pGood) qOpen).1.previousClose = qOpen.previousClose ∧
    (fetchQuote (.response 404 pGood) qOpen).1.percentageChange = qOpen.percentageChange :=
  ⟨by decide, (c5_transport_failure_frame qOpen 404 pGood (by decide)).2⟩

/-! ### Claim C8 -/

/-- C8: the color chosen by `drawQuote` for the value row and by
`drawPercentChange` for the percent row agree, for every quote, with the
specification's reference classification — inactive whenever the market is
closed regardless of the numeric fields, strict comparison with exact
equality for the value row, and the 0.001 tolerance for the percent row. -/
theorem c8_display_colors :
    ∀ q : quote, valueColor q = valueColorSpec q ∧ percentColor q = percentColorSpec q := by
  intro q
  constructor <;> cases hm : q.marketOpen <;>
    simp [valueColor, valueColorSpec, percentColor, percentColorSpec, hm]

/-! ### Claim C4 -/

/-- The percentage-change law for the whole quote set. -/
def pcInvariantSet (s : QuoteSet) : Prop :=
  pcInvariant s.spx ∧ pcInvariant s.ndx ∧ pcInvariant s.bnd

lemma pcInvariant_populate (m : List Char) : pcInvariant (populate m) := by
  by_cases h : extractValue m keyPrevClose = 0 <;> simp [pcInvariant, populate, h]

lemma pcInvariant_initQuote : pcInvariant initQuote := by
  simp [pcInvariant, initQuote]

lemma pcInvariant_fetchQuote (att : HttpAttempt) (q : quote) (h : pcInvariant q) :
    pcInvariant (fetchQuote att q).1 := by
  rcases fetchQuote_fail_or_pop att q with heq | ⟨p, ms, me, _, _, heq⟩ <;> rw [heq]
  · exact h
  · exact pcInvariant_populate _

lemma pcInvariantSet_runCycle (s : QuoteSet) (c : HttpAttempt × HttpAttempt × HttpAttempt)
    (h : pcInvariantSet s) : pcInvariantSet (runCycle s c) := by
  obtain ⟨h1, h2, h3⟩ := h
  exact ⟨pcInvariant_fetchQuote _ _ h1, pcInvariant_fetchQuote _ _ h2,
    pcInvariant_fetchQuote _ _ h3⟩

lemma pcInvariantSet_runCycles (cycles : List (HttpAttempt × HttpAttempt × HttpAttempt)) :
    ∀ s : QuoteSet, pcInvariantSet s → pcInvariantSet (runCycles s cycles) := by
  induction cycles with
  | nil => exact fun s h => h
  | cons c cs ih => exact fun s h => ih _ (pcInvariantSet_runCycle s c h)

/-- C4: every quote produced by a successful fetch satisfies the percentage
law `percentageChange = (current - previousClose) / previousClose * 100`
when `previousClose ≠ 0` and `percentageChange = 0` when it is 0, and —
starting from the zero-initialized globals — all three quotes satisfy it
after every sequence of refresh cycles (failures leave the fields
untouched, successes recompute them under the division guard). -/
theorem c4_percentage_invariant :
    (∀ (att : HttpAttempt) (q : quote), (fetchQuote att q).2 = true →
      pcInvariant (fetchQuote att q).1) ∧
    (∀ cycles : List (HttpAttempt × HttpAttempt × HttpAttempt),
      pcInvariantSet (runCycles initQuotes cycles)) := by
  constructor
  · intro att q h
    rcases fetchQuote_fail_or_pop att q with heq | ⟨p, ms, me, _, _, heq⟩
    · rw [heq] at h
      simp at h
    · rw [heq]
      exact pcInvariant_populate _
  · intro cycles
    exact pcInvariantSet_runCycles cycles initQuotes
      ⟨pcInvariant_initQuote, pcInvariant_initQuote, pcInvariant_initQuote⟩

/-- Witness for C4 at a concrete successful fetch and a concrete cycle. -/
theorem c4_witness :
    (fetchQuote (.response 200 pGood) qOpen).2 = true ∧
    pcInvariant (fetchQuote (.response 200 pGood) qOpen).1 ∧
    pcInvariantSet (runCycles initQuotes [(.beginFail, .beginFail, .beginFail)]) := by
  have h : (fetchQuote (.response 200 pGood) qOpen).2 = true := by decide
  exact ⟨h, c4_percentage_invariant.1 _ _ h, c4_percentage_invariant.2 _⟩

/-! ### Claim C6 -/

/-- C6: the string scans are bounds-safe.  Whenever `extractValue` slices a
value substring out of the payload, the slice `[s, e)` lies inside the
buffer (`0 < s`, `s < e`, `e ≤ length`); whenever `fetchQuote` slices the
meta section `[ms, me + 1)`, that range lies inside the payload as well.
All embedded scan functions are total, so malformed payloads can only
produce the soft failure (`none` / 0.0), never an out-of-bounds read. -/
theorem c6_bounded_scan :
    ∀ (payload field : List Char) (s e : Int),
      (extractSpan payload field = some (s, e) →
        0 < s ∧ s < e ∧ e ≤ (payload.length : Int)) ∧
      (metaSpan payload = some (s, e) →
        0 ≤ s ∧ s ≤ e ∧ e + 1 ≤ (payload.length : Int)) := by
  intro payload field s e
  constructor
  · intro h
    obtain ⟨i, j, hfind, hi, hs, hfind2, he, hlt⟩ := extractSpan_some_elim h
    obtain ⟨-, hbound⟩ := indexOfFrom_bound hfind2
    subst hs
    subst he
    refine ⟨by omega, hlt, ?_⟩
    simp only [List.length_singleton] at hbound
    omega
  · intro h
    obtain ⟨i, j, hfind, hms, hfind2, hme⟩ := metaSpan_some_elim h
    obtain ⟨hij, hbound⟩ := indexOfFrom_bound hfind2
    subst hms
    subst hme
    simp only [List.length_singleton] at hbound
    exact ⟨by omega, by omega, by omega⟩

/-- Witness for C6 at a concrete extraction and a concrete section search. -/
theorem c6_witness :
    extractSpan (' ' :: bufC3) keyPrice = some (22, 28) ∧
    (0 < (22 : Int) ∧ (22 : Int) < 28 ∧ (28 : Int) ≤ (((' ' :: bufC3).length : ℕ) : Int)) ∧
    metaSpan pBad = some (0, 8) ∧
    (0 ≤ (0 : Int) ∧ (0 : Int) ≤ 8 ∧ (8 : Int) + 1 ≤ ((pBad.length : ℕ) : Int)) :=
  ⟨eval_bufC3_shift_span,
    (c6_bounded_scan (' ' :: bufC3) keyPrice 22 28).1 eval_bufC3_shift_span,
    eval_pBad_meta,
    (c6_bounded_scan pBad keyMeta 0 8).2 eval_pBad_meta⟩

/-! ### Claim C9 -/

/-- C9: when the field key occurs at offset 0 of the buffer, `extractValue`
fails with 0.0 no matter what follows the key — `indexOf` returns 0, so
`start` equals `strlen(field)` and the guard `start > strlen(field)`
rejects; conversely, every successful extraction has its key at an offset
of at least 1. -/
theorem c9_key_at_offset_zero :
    (∀ payload field : List Char, indexOfFrom payload field 0 = some 0 →
      extractSpan payload field = none ∧ extractValue payload field = 0) ∧
    (∀ (payload field : List Char) (s e : Int), extractSpan payload field = some (s, e) →
      ∃ i : ℕ, indexOfFrom payload field 0 = some i ∧ 1 ≤ i) := by
  constructor
  · intro payload field h
    have hspan : extractSpan payload field = none := by
      rw [extractSpan.eq_def]
      simp only [indexOfI_some h]
      rw [if_neg (by omega)]
    exact ⟨hspan, extractValue_of_span_none _ _ hspan⟩
  · intro payload field s e h
    obtain ⟨i, j, hfind, hi, -, -, -, -⟩ := extractSpan_some_elim h
    exact ⟨i, hfind, hi⟩

/-- Witness for C9 on the example buffer, whose key sits at offset 0. -/
theorem c9_witness :
    indexOfFrom bufC3 keyPrice 0 = some 0 ∧
    extractSpan bufC3 keyPrice = none ∧ extractValue bufC3 keyPrice = 0 := by
  have h : indexOfFrom bufC3 keyPrice 0 = some 0 := by decide
  exact ⟨h, c9_key_at_offset_zero.1 bufC3 keyPrice h⟩

/-! ### Decimal digit strings -/

lemma digitsToNat_from (b : List Char) (acc : ℕ) :
    b.foldl (fun a c => a * 10 + digitVal c) acc = acc * 10 ^ b.length + digitsToNat b := by
  induction b generalizing acc with
  | nil => simp [digitsToNat]
  | cons c t ih =>
    simp only [List.foldl_cons, digitsToNat] at *
    rw [ih (acc * 10 + digitVal c), ih (0 * 10 + digitVal c)]
    simp only [List.length_cons, pow_succ]
    ring

lemma digitsToNat_append (a b : List Char) :
    digitsToNat (a ++ b) = digitsToNat a * 10 ^ b.length + digitsToNat b := by
  unfold digitsToNat
  rw [List.foldl_append]
  exact digitsToNat_from b _

lemma digitVal_digitChar {n : ℕ} (h : n < 10) : digitVal (Nat.digitChar n) = n := by
  interval_cases n <;> rfl

lemma isDigit_digitChar {n : ℕ} (h : n < 10) : (Nat.digitChar n).isDigit = true := by
  interval_cases n <;> rfl

lemma digitsToNat_single (c : Char) : digitsToNat [c] = digitVal c := by
  simp [digitsToNat]

lemma natDigitsAux_spec : ∀ fuel n, n < 10 ^ fuel →
    digitsToNat (natDigitsAux fuel n) = n ∧ ∀ c ∈ natDigitsAux fuel n, c.isDigit = true := by
  intro fuel
  induction fuel with
  | zero =>
    intro n h
    interval_cases n
    exact ⟨rfl, by simp [natDigitsAux]⟩
  | succ fuel ih =>
    intro n h
    by_cases h10 : n < 10
    · simp only [natDigitsAux, if_pos h10]
      refine ⟨?_, ?_⟩
      · rw [digitsToNat_single, digitVal_digitChar h10]
      · intro c hc
        simp only [List.mem_singleton] at hc
        subst hc
        exact isDigit_digitChar h10
    · simp only [natDigitsAux, if_neg h10]
      have hdiv : n / 10 < 10 ^ fuel := by
        rw [Nat.div_lt_iff_lt_mul (by norm_num)]
        calc n < 10 ^ (fuel + 1) := h
        _ = 10 ^ fuel * 10 := by rw [pow_succ]
      obtain ⟨ih1, ih2⟩ := ih (n / 10) hdiv
      refine ⟨?_, ?_⟩
      · rw [digitsToNat_append, ih1, digitsToNat_single,
          digitVal_digitChar (Nat.mod_lt n (by norm_num))]
        simp only [List.length_singleton, pow_one]
        omega
      · intro c hc
        rw [List.mem_append] at hc
        rcases hc with hc | hc
        · exact ih2 c hc
        · simp only [List.mem_singleton] at hc
          subst hc
          exact isDigit_digitChar (Nat.mod_lt n (by norm_num))

lemma natDigits_toNat (n : ℕ) : digitsToNat (natDigits n) = n := by
  have hbound : n < 10 ^ (n + 1) :=
    lt_of_lt_of_le (Nat.lt_pow_self (by norm_num) n)
      (Nat.pow_le_pow_right (by norm_num) (Nat.le_succ n))
  exact (natDigitsAux_spec (n + 1) n hbound).1

lemma natDigits_digit (n : ℕ) : ∀ c ∈ natDigits n, c.isDigit = true := by
  have hbound : n < 10 ^ (n + 1) :=
    lt_of_lt_of_le (Nat.lt_pow_self (by norm_num) n)
      (Nat.pow_le_pow_right (by norm_num) (Nat.le_succ n))
  exact (natDigitsAux_spec (n + 1) n hbound).2

lemma natDigits_ne_nil (n : ℕ) : natDigits n ≠ [] := by
  unfold natDigits natDigitsAux
  by_cases h : n < 10 <;> simp [h]

lemma natDigitsAux_length_le : ∀ (fuel d n : ℕ), n < 10 ^ d → 1 ≤ d →
    (natDigitsAux fuel n).length ≤ d := by
  intro fuel
  induction fuel with
  | zero => intro d n _ _; simp [natDigitsAux]
  | succ fuel ih =>
    intro d n hn hd
    by_cases h10 : n < 10
    · simp only [natDigitsAux, if_pos h10, List.length_singleton]
      omega
    · have hd2 : 2 ≤ d := by
        rcases d with _ | _ | d
        · omega
        · exfalso
          rw [pow_one] at hn
          omega
        · omega
      simp only [natDigitsAux, if_neg h10, List.length_append, List.length_singleton]
      have hpow : 10 ^ (d - 1) * 10 = 10 ^ d := by
        rw [← pow_succ]
        congr 1
        omega
      have hdiv : n / 10 < 10 ^ (d - 1) := by
        rw [Nat.div_lt_iff_lt_mul (by norm_num), hpow]
        exact hn
      have hlen := ih (d - 1) (n / 10) hdiv (by omega)
      omega

lemma padZeros_length {d : ℕ} {cs : List Char} (h : cs.length ≤ d) :
    (padZeros d cs).length = d := by
  simp only [padZeros, List.length_append, List.length_replicate]
  omega

lemma digitsToNat_replicate_zero (k : ℕ) : digitsToNat (List.replicate k '0') = 0 := by
  induction k with
  | zero => rfl
  | succ k ih =>
    have h0 : digitVal '0' = 0 := rfl
    simp only [List.replicate_succ, digitsToNat, List.foldl_cons] at *
    simpa [h0] using ih

lemma digitsToNat_padZeros (d : ℕ) (cs : List Char) :
    digitsToNat (padZeros d cs) = digitsToNat cs := by
  unfold padZeros
  rw [digitsToNat_append, digitsToNat_replicate_zero]
  simp

lemma padZeros_digits {d : ℕ} {cs : List Char} (h : ∀ c ∈ cs, c.isDigit = true) :
    ∀ c ∈ padZeros d cs, c.isDigit = true := by
  intro c hc
  rw [padZeros, List.mem_append] at hc
  rcases hc with hc | hc
  · rw [List.eq_of_mem_replicate hc]
    rfl
  · exact h c hc

/-! ### Rounding -/

lemma rne_nonneg {x : ℚ} (h : 0 ≤ x) : 0 ≤ rne x := by
  unfold rne
  dsimp only
  have hf : (0 : ℤ) ≤ ⌊x⌋ := Int.le_floor.mpr (by simpa using h)
  split_ifs <;> omega

lemma rne_intCast (z : ℤ) : rne ((z : ℤ) : ℚ) = z := by
  unfold rne
  dsimp only
  rw [Int.floor_intCast]
  have hz : ((z : ℤ) : ℚ) - ((z : ℤ) : ℚ) = 0 := by ring
  rw [hz]
  norm_num

/-! ### The grouping loop and the shape of the formatted string -/

lemma filter_groupLoop {sep : Char} (hsep : sep.isDigit = false) :
    ∀ (cs : List Char) (i k : ℕ),
      (groupLoop cs i k sep).filter Char.isDigit = cs.filter Char.isDigit := by
  intro cs
  induction cs with
  | nil => intro i k; rfl
  | cons c t ih =>
    intro i k
    unfold groupLoop
    split_ifs with hik <;> simp [List.filter_cons, hsep, ih]

lemma filter_eq_self_digits {cs : List Char} (h : ∀ c ∈ cs, c.isDigit = true) :
    cs.filter Char.isDigit = cs := by
  induction cs with
  | nil => rfl
  | cons c t ih =>
    have hc := h c (List.mem_cons_self c t)
    have ht : ∀ x ∈ t, x.isDigit = true := fun x hx => h x (List.mem_cons_of_mem c hx)
    simp [List.filter_cons, hc, ih ht]

lemma idxAux_not_mem {c : Char} : ∀ (s : List Char) (i : ℕ), c ∉ s →
    idxAux [c] s i = none := by
  intro s
  induction s with
  | nil => intro i _; rfl
  | cons b t ih =>
    intro i h
    simp only [List.mem_cons, not_or] at h
    have hlw : leadsWith [c] (b :: t) = false := by
      simp only [leadsWith, Bool.and_eq_true, beq_iff_eq]
      simp [h.1]
    unfold idxAux
    rw [hlw]
    simp only [Bool.false_eq_true, if_false]
    exact ih (i + 1) h.2

lemma idxAux_append {c : Char} : ∀ (a b : List Char) (i : ℕ), c ∉ a →
    idxAux [c] (a ++ c :: b) i = some (i + a.length) := by
  intro a
  induction a with
  | nil =>
    intro b i _
    simp [idxAux, leadsWith]
  | cons x a' ih =>
    intro b i h
    simp only [List.mem_cons, not_or] at h
    have hlw : leadsWith [c] (x :: (a' ++ c :: b)) = false := by
      simp only [leadsWith, Bool.and_eq_true, beq_iff_eq]
      simp [h.1]
    rw [List.cons_append]
    unfold idxAux
    rw [hlw]
    simp only [Bool.false_eq_true, if_false]
    rw [ih b (i + 1) h.2]
    congr 1
    simp only [List.length_cons]
    omega

lemma indexOfI_first_dot {a b : List Char} (h : '.' ∉ a) :
    indexOfI (a ++ '.' :: b) ['.'] 0 = (a.length : Int) := by
  unfold indexOfI indexOfFrom
  rw [if_neg (by simp)]
  rw [List.drop_zero, idxAux_append a b 0 h]
  simp

lemma indexOfI_no_dot {s : List Char} (h : '.' ∉ s) : indexOfI s ['.'] 0 = -1 := by
  unfold indexOfI indexOfFrom
  by_cases hlen : s.length ≤ 0
  · rw [if_pos hlen]
  · rw [if_neg hlen, List.drop_zero, idxAux_not_mem s 0 h]

lemma take_len_append (a b : List Char) : (a ++ b).take a.length = a := by
  induction a with
  | nil => rfl
  | cons x t ih => simp [ih]

lemma drop_len_append_succ (a : List Char) (c : Char) (b : List Char) :
    (a ++ c :: b).drop (a.length + 1) = b := by
  induction a with
  | nil => rfl
  | cons x t ih => simp [ih]

lemma comma_separator_no_dot (v : ℚ) (sep : Char) (d : ℕ)
    (h : '.' ∉ fixedFormat v d) :
    comma_separator v sep d =
      groupLoop (fixedFormat v d) 0
        (if (fixedFormat v d).length % 3 = 0 then 3 else (fixedFormat v d).length % 3)
        sep := by
  have hdp : indexOfI (fixedFormat v d) ['.'] 0 = -1 := indexOfI_no_dot h
  simp only [comma_separator, hdp]
  simp [List.take_length]

lemma comma_separator_with_dot (v : ℚ) (sep : Char) (d : ℕ) (A F : List Char)
    (hAdot : '.' ∉ A) (htemp : fixedFormat v d = A ++ '.' :: F) (hF : F.length = d) :
    comma_separator v sep d =
      groupLoop A 0 (if A.length % 3 = 0 then 3 else A.length % 3) sep ++ '.' :: F := by
  have hdp : indexOfI (A ++ '.' :: F) ['.'] 0 = (A.length : Int) :=
    indexOfI_first_dot hAdot
  have hne : ((A.length : ℕ) : Int) ≠ -1 := by omega
  have htn : ((A.length : ℕ) : Int).toNat = A.length := by omega
  simp only [comma_separator, htemp, hdp, if_neg hne, htn, take_len_append,
    drop_len_append_succ]
  rw [← hF, List.take_length]

/-! ### Claim C7 -/

lemma eval_rne_item1 : rne ((123456 / 10000 : ℚ) * 10 ^ 4) = 123456 := by
  have h : ((123456 / 10000 : ℚ) * 10 ^ 4) = ((123456 : ℤ) : ℚ) := by norm_num
  rw [h, rne_intCast]

lemma eval_ff_item1 : fixedFormat (123456 / 10000 : ℚ) 4 = "12.3456".data := by
  have hneg : ¬ ((123456 / 10000 : ℚ) < 0) := by norm_num
  simp only [fixedFormat, eval_rne_item1, if_neg hneg]
  decide

lemma eval_cs_item1 : comma_separator (123456 / 10000 : ℚ) '.' 4 = "12.3456".data := by
  simp only [comma_separator, eval_ff_item1]
  decide

lemma eval_rne_item2 : rne ((1234567 : ℚ) * 10 ^ 0) = 1234567 := by
  have h : ((1234567 : ℚ) * 10 ^ 0) = ((1234567 : ℤ) : ℚ) := by norm_num
  rw [h, rne_intCast]

lemma eval_ff_item2 : fixedFormat (1234567 : ℚ) 0 = "1234567".data := by
  have hneg : ¬ ((1234567 : ℚ) < 0) := by norm_num
  simp only [fixedFormat, eval_rne_item2, if_neg hneg]
  decide

lemma eval_cs_item2 : comma_separator (1234567 : ℚ) ',' 0 = "1,234,567".data := by
  simp only [comma_separator, eval_ff_item2]
  decide

/-- C7: round-trip law of the formatter.  For every non-negative value and
every non-digit separator character, reading the digit characters of the
formatted string (dropping the inserted group separators and re-inserting
the decimal point `d` places from the end) recovers exactly `v` rounded to
`d` decimals; and the two concrete examples of the specification hold. -/
theorem c7_round_trip :
    (∀ (v : ℚ) (d : ℕ) (sep : Char), 0 ≤ v → sep.isDigit = false →
      parseBackDigits (comma_separator v sep d) d = roundTo v d) ∧
    comma_separator (123456 / 10000 : ℚ) '.' 4 = ("12.3456".data) ∧
    comma_separator (1234567 : ℚ) ',' 0 = ("1,234,567".data) := by
  refine ⟨?_, eval_cs_item1, eval_cs_item2⟩
  intro v d sep hv hsep
  have hsign : ¬ (v < 0) := not_lt.mpr hv
  have hn0 : (0 : ℤ) ≤ rne (v * 10 ^ d) := rne_nonneg (by positivity)
  set n := rne (v * 10 ^ d) with hn
  set m := n.natAbs with hm
  have hmQ : ((m : ℕ) : ℚ) = ((n : ℤ) : ℚ) := by
    have hz : ((m : ℕ) : ℤ) = n := Int.natAbs_of_nonneg hn0
    exact_mod_cast hz
  clear_value n
  clear_value m
  set A := natDigits (m / 10 ^ d) with hA
  have hAdig : ∀ c ∈ A, c.isDigit = true := hA ▸ natDigits_digit _
  have hAdot : '.' ∉ A := fun hmem => by simpa using hAdig _ hmem
  by_cases hd : d = 0
  · subst hd
    have htemp : fixedFormat v 0 = A := by
      simp only [fixedFormat, if_neg hsign, hA, hm, hn]
      simp
    have hout := comma_separator_no_dot v sep 0 (htemp ▸ hAdot)
    rw [htemp] at hout
    unfold parseBackDigits
    rw [hout, filter_groupLoop hsep, filter_eq_self_digits hAdig, hA, natDigits_toNat]
    unfold roundTo
    rw [← hn]
    simp only [pow_zero, Nat.div_one]
    rw [hmQ]
  · set F := padZeros d (natDigits (m % 10 ^ d)) with hF
    have hfp_lt : m % 10 ^ d < 10 ^ d := Nat.mod_lt _ (by positivity)
    have hFlen : F.length = d := by
      rw [hF]
      exact padZeros_length (natDigitsAux_length_le _ d _ hfp_lt (by omega))
    have hFdig : ∀ c ∈ F, c.isDigit = true := hF ▸ padZeros_digits (natDigits_digit _)
    have htemp : fixedFormat v d = A ++ '.' :: F := by
      simp only [fixedFormat, if_neg hsign, if_neg hd, hA, hF, hm, hn]
      simp
    have hout := comma_separator_with_dot v sep d A F hAdot htemp hFlen
    unfold parseBackDigits
    rw [hout, List.filter_append, filter_groupLoop hsep, filter_eq_self_digits hAdig]
    have hdotF : ('.' :: F).filter Char.isDigit = F := by
      have hdot : Char.isDigit '.' = false := rfl
      simp [List.filter_cons, hdot, filter_eq_self_digits hFdig]
    rw [hdotF, digitsToNat_append, hA, natDigits_toNat, hF, digitsToNat_padZeros,
      natDigits_toNat, ← hF, hFlen]
    have hdm : m / 10 ^ d * 10 ^ d + m % 10 ^ d = m := by
      conv_rhs => rw [← Nat.div_add_mod m (10 ^ d)]
      ring
    rw [hdm]
    unfold roundTo
    rw [← hn, hmQ]

/-- Witness for C7's round-trip law at the specification's own example. -/
theorem c7_witness :
    (0 : ℚ) ≤ 123456 / 10000 ∧ Char.isDigit '.' = false ∧
    parseBackDigits (comma_separator (123456 / 10000 : ℚ) '.' 4) 4 =
      roundTo (123456 / 10000 : ℚ) 4 := by
  have h1 : (0 : ℚ) ≤ 123456 / 10000 := by norm_num
  have h2 : Char.isDigit '.' = false := rfl
  exact ⟨h1, h2, c7_round_trip.1 _ 4 '.' h1 h2⟩

/-! ### Claim C10 -/

lemma eval_rne_item3 : rne ((-123456 : ℚ) * 10 ^ 0) = -123456 := by
  have h : ((-123456 : ℚ) * 10 ^ 0) = ((-123456 : ℤ) : ℚ) := by norm_num
  rw [h, rne_intCast]

lemma eval_ff_item3 : fixedFormat (-123456 : ℚ) 0 = "-123456".data := by
  have hneg : (-123456 : ℚ) < 0 := by norm_num
  simp only [fixedFormat, eval_rne_item3, if_pos hneg]
  decide

lemma eval_cs_item3 : comma_separator (-123456 : ℚ) ',' 0 = "-,123,456".data := by
  simp only [comma_separator, eval_ff_item3]
  decide

lemma eval_ipl_item3 : intPortionLen (-123456 : ℚ) 0 = 7 := by
  simp only [intPortionLen, eval_ff_item3]
  decide

/-- C10: for every negative value whose formatted integer portion (sign
included) has length congruent to 1 mod 3, the first group boundary is
`k = 1`, so `comma_separator` emits the separator immediately after the
sign: the output starts `'-', sep`.  In particular
`comma_separator(-123456, ',', 0)` is `"-,123,456"`. -/
theorem c10_negative_grouping :
    (∀ (v : ℚ) (d : ℕ) (sep : Char), v < 0 → intPortionLen v d % 3 = 1 →
      (comma_separator v sep d).take 2 = ['-', sep]) ∧
    comma_separator (-123456 : ℚ) ',' 0 = ("-,123,456".data) := by
  refine ⟨?_, eval_cs_item3⟩
  intro v d sep hv hlen
  set m := (rne (v * 10 ^ d)).natAbs with hm
  set A := natDigits (m / 10 ^ d) with hA
  have hAdig : ∀ c ∈ A, c.isDigit = true := hA ▸ natDigits_digit _
  have hAnil : A ≠ [] := hA ▸ natDigits_ne_nil _
  have hAdot : '.' ∉ A := fun hmem => by simpa using hAdig _ hmem
  have hdot2 : '.' ∉ ('-' :: A) := by
    intro hmem
    rcases List.mem_cons.mp hmem with h1 | h1
    · exact absurd h1 (by decide)
    · exact hAdot h1
  obtain ⟨a0, A0, hA0⟩ := List.exists_cons_of_ne_nil hAnil
  by_cases hd : d = 0
  · subst hd
    have htemp : fixedFormat v 0 = '-' :: A := by
      simp only [fixedFormat, if_pos hv, hA, hm]
      simp
    have hout := comma_separator_no_dot v sep 0 (htemp ▸ hdot2)
    rw [htemp] at hout
    have hipl : intPortionLen v 0 = ('-' :: A).length := by
      simp only [intPortionLen, htemp, indexOfI_no_dot hdot2]
      simp
    rw [hipl] at hlen
    rw [hout, if_neg (by omega), hlen, hA0]
    simp [groupLoop]
  · set F := padZeros d (natDigits (m % 10 ^ d)) with hF
    have hfp_lt : m % 10 ^ d < 10 ^ d := Nat.mod_lt _ (by positivity)
    have hFlen : F.length = d := by
      rw [hF]
      exact padZeros_length (natDigitsAux_length_le _ d _ hfp_lt (by omega))
    have htemp : fixedFormat v d = ('-' :: A) ++ '.' :: F := by
      simp only [fixedFormat, if_pos hv, if_neg hd, hA, hF, hm]
      simp
    have hout := comma_separator_with_dot v sep d ('-' :: A) F hdot2 htemp hFlen
    have hipl : intPortionLen v d = ('-' :: A).length := by
      simp only [intPortionLen, htemp, indexOfI_first_dot hdot2]
      rw [if_neg (by omega)]
      omega
    rw [hipl] at hlen
    rw [hout, if_neg (by omega), hlen, hA0]
    simp [groupLoop]

/-- Witness for C10's boundary law at the specification's example value. -/
theorem c10_witness :
    (-123456 : ℚ) < 0 ∧ intPortionLen (-123456 : ℚ) 0 % 3 = 1 ∧
    (comma_separator (-123456 : ℚ) ',' 0).take 2 = ['-', ','] := by
  have h1 : (-123456 : ℚ) < 0 := by norm_num
  have h2 : intPortionLen (-123456 : ℚ) 0 % 3 = 1 := by rw [eval_ipl_item3]
  exact ⟨h1, h2, c10_negative_grouping.1 (-123456) 0 ',' h1 h2⟩

end StockMarket
